import Mathlib

/-!
Verification of the Backrooms_Doom rendering core.

The Rust sources (maze.rs, caster.rs, effects.rs, framebuffer.rs,
textures.rs, game.rs) are shallowly embedded here.  `f32` values are
modelled as exact rationals (`ℚ`); the saturating Rust numeric casts
(`as i32`, `as usize`, `as u8`) are modelled explicitly, and the one
operation whose IEEE-754 rounding is observable in a verified property
— the fractional-part subtraction producing the caster's texture-U
coordinate — carries an explicit binary32 round-to-nearest-even model
(`fl32`).  The external trigonometric functions `cos`/`sin` are passed
in as parameters (`fcos`, `fsin : ℚ → ℚ`), since the properties
verified below hold for every value they may return.  The unbounded
`while` loop of the DDA traversal is embedded with explicit fuel; the
termination theorem shows the fuel `width + height + 2` always
suffices.
-/

namespace Backrooms

/-- Exact value of `f32::MAX`. -/
def f32Max : ℚ := 340282346638528859811704183484516925440

/-- Largest `usize` value (64-bit target). -/
def usizeMax : Nat := 2 ^ 64 - 1

/-- Largest `i32` value. -/
def i32MaxI : Int := 2 ^ 31 - 1

/-- Smallest `i32` value. -/
def i32MinI : Int := -(2 ^ 31)

/-- Truncation toward zero, as Rust float-to-integer casts do. -/
def ratTrunc (q : ℚ) : Int := if q < 0 then -⌊-q⌋ else ⌊q⌋

/-- Rust `f32 as i32`: truncate toward zero, saturating at the `i32` range. -/
def f32ToI32 (q : ℚ) : Int := max i32MinI (min i32MaxI (ratTrunc q))

/-- Rust `f32 as usize`: truncate toward zero, saturating at `[0, usize::MAX]`. -/
def f32ToUsize (q : ℚ) : Nat := min (ratTrunc q).toNat usizeMax

/-- Rust `f32 as u8`: truncate toward zero, saturating at `[0, 255]`. -/
def f32ToU8 (q : ℚ) : Nat := min (ratTrunc q).toNat 255

/-- Rust `i32 as usize`: two's-complement wrap into the 64-bit range. -/
def i32ToUsize (i : Int) : Nat := (i % 2 ^ 64).toNat

/-- Rust `usize as i32`: two's-complement wrap into the 32-bit range. -/
def usizeToI32 (n : Nat) : Int :=
  let r : Int := (n : Int) % 2 ^ 32
  if r < 2 ^ 31 then r else r - 2 ^ 32

/-- Rust `f32::clamp(lo, hi)` on ordinary (non-NaN) values. -/
def qclamp (q lo hi : ℚ) : ℚ := max lo (min hi q)

/-- RGBA color; channels are `u8` values modelled as naturals. -/
structure Color where
  r : Nat
  g : Nat
  b : Nat
  a : Nat
deriving DecidableEq, Repr

/-- Placeholder color used for total-function indexing (never reached
in the verified paths). -/
def defaultColor : Color := ⟨0, 0, 0, 0⟩

/-! ### maze.rs -/

/-- The `Maze` struct of maze.rs (the fields the rendering core reads). -/
structure Maze where
  map : List (List Char)
  width : Nat
  height : Nat
  tile_size : ℚ

/-- `Maze::get_tile`: `self.map.get(y)?.get(x).copied()`. -/
def Maze.get_tile (m : Maze) (x y : Nat) : Option Char :=
  (m.map[y]?).bind fun row => row[x]?

/-- `Maze::is_wall`: `matches!(self.get_tile(x, y), Some('#') | Some('E'))`. -/
def Maze.is_wall (m : Maze) (x y : Nat) : Bool :=
  match m.get_tile x y with
  | some '#' => true
  | some 'E' => true
  | _ => false

/-- `Maze::is_walkable`: convert the world position to a grid cell with
`as usize` casts and negate `is_wall`. -/
def Maze.is_walkable (m : Maze) (world_x world_y : ℚ) : Bool :=
  let grid_x := f32ToUsize (world_x / m.tile_size)
  let grid_y := f32ToUsize (world_y / m.tile_size)
  !(m.is_wall grid_x grid_y)

/-- Well-formedness produced by `Maze::load_from_file`: `height` is the
number of rows and every row has length `width`. -/
def Maze.WF (m : Maze) : Prop :=
  m.map.length = m.height ∧ ∀ row ∈ m.map, row.length = m.width

instance (m : Maze) : Decidable m.WF := by
  unfold Maze.WF; infer_instance

/-- Concrete 1×1 maze consisting of a single wall cell. -/
def mazeOne : Maze := ⟨[['#']], 1, 1, 1⟩

/-! ### effects.rs -/

/-- The `Effects` struct of effects.rs (the fog-related fields). -/
structure Effects where
  fog_enabled : Bool
  fog_distance : ℚ
  fog_color : Color

/-- `Effects::new`: fog disabled, distance 15, yellowish fog color. -/
def Effects.new : Effects := ⟨false, 15, ⟨80, 75, 50, 255⟩⟩

/-- `Effects::apply_fog`: early-return when fog is disabled, otherwise
linear blend toward the fog color with factor `(distance / fog_distance)`
clamped to `[0, 1]`; the result's alpha is rebuilt as 255. -/
def Effects.apply_fog (e : Effects) (color : Color) (distance : ℚ) : Color :=
  if !e.fog_enabled then color
  else
    let fog_factor := qclamp (distance / e.fog_distance) 0 1
    ⟨f32ToU8 ((1 - fog_factor) * (color.r : ℚ) + fog_factor * (e.fog_color.r : ℚ)),
     f32ToU8 ((1 - fog_factor) * (color.g : ℚ) + fog_factor * (e.fog_color.g : ℚ)),
     f32ToU8 ((1 - fog_factor) * (color.b : ℚ) + fog_factor * (e.fog_color.b : ℚ)),
     255⟩

/-- `Effects::calculate_shading`: orientation shade factor. -/
def Effects.calculate_shading (_e : Effects) (hit_vertical : Bool) : ℚ :=
  if hit_vertical then 95 / 100 else 1

/-- `Effects::calculate_distance_shading`: linear falloff
`1 - clamp(distance / max_distance, 0, 1) * 0.25`. -/
def Effects.calculate_distance_shading (_e : Effects) (distance max_distance : ℚ) : ℚ :=
  let normalized := qclamp (distance / max_distance) 0 1
  1 - normalized * (25 / 100)

/-! ### framebuffer.rs -/

/-- The `Framebuffer` struct of framebuffer.rs (pixel-buffer fields; the
raylib image/texture caches are presentation-only and not modelled). -/
structure Framebuffer where
  width : Nat
  height : Nat
  buffer : List Color
deriving DecidableEq

/-- `Framebuffer::set_pixel`: bounds-checked single-pixel write at
row-major index `y * width + x`. -/
def Framebuffer.set_pixel (fb : Framebuffer) (x y : Nat) (color : Color) : Framebuffer :=
  if x < fb.width ∧ y < fb.height then
    { fb with buffer := fb.buffer.set (y * fb.width + x) color }
  else fb

/-- `Framebuffer::apply_fog` (associated function): blend factor
`(distance / max_distance).min(1.0)`, alpha rebuilt as 255. -/
def Framebuffer.apply_fog (color : Color) (distance max_distance : ℚ) (fog_color : Color) : Color :=
  let fog_factor := min (distance / max_distance) 1
  ⟨f32ToU8 ((1 - fog_factor) * (color.r : ℚ) + fog_factor * (fog_color.r : ℚ)),
   f32ToU8 ((1 - fog_factor) * (color.g : ℚ) + fog_factor * (fog_color.g : ℚ)),
   f32ToU8 ((1 - fog_factor) * (color.b : ℚ) + fog_factor * (fog_color.b : ℚ)),
   255⟩

/-- The color `draw_textured_floor_span` writes at screen column `x` of
row `y`: perspective row distance, per-column ray angle, tiled texture
sample, then the constant shade factor 0.9 with alpha 255. -/
def floorSpanColor (fbw fbh : Nat) (fcos fsin : ℚ → ℚ) (texture : List Color)
    (tex_width tex_height : Nat) (player_x player_y player_angle : ℚ)
    (y x : Nat) : Color :=
  let row_distance := ((fbh : ℚ) / 2) / max ((y : ℚ) - (fbh : ℚ) / 2) 1
  let camera_x := 2 * (x : ℚ) / (fbw : ℚ) - 1
  let ray_angle := player_angle + camera_x * (5 / 10)
  let floor_x := player_x + fcos ray_angle * row_distance * (5 / 10)
  let floor_y := player_y + fsin ray_angle * row_distance * (5 / 10)
  let tex_u := f32ToUsize (|floor_x| * 2) % tex_width
  let tex_v := f32ToUsize (|floor_y| * 2) % tex_height
  let tex_index := min (tex_v * tex_width + tex_u) (texture.length - 1)
  let base_color := texture.getD tex_index defaultColor
  ⟨f32ToU8 ((base_color.r : ℚ) * (9 / 10)),
   f32ToU8 ((base_color.g : ℚ) * (9 / 10)),
   f32ToU8 ((base_color.b : ℚ) * (9 / 10)),
   255⟩

/-- `Framebuffer::draw_textured_floor_span`: early-return when the row is
off-screen, clamp the column range to the buffer width, then write the
span's pixels.  The `distance` and `fog_distance` parameters are part of
the source signature but are read nowhere in the body. -/
def Framebuffer.draw_textured_floor_span (fb : Framebuffer) (fcos fsin : ℚ → ℚ)
    (y x_start x_end : Nat) (texture : List Color) (tex_width tex_height : Nat)
    (player_x player_y player_angle _distance _fog_distance : ℚ) : Framebuffer :=
  if fb.height ≤ y then fb
  else
    let xs := min x_start fb.width
    let xe := min x_end fb.width
    (List.range' xs (xe - xs)).foldl
      (fun acc x =>
        { acc with
          buffer := acc.buffer.set (y * fb.width + x)
            (floorSpanColor fb.width fb.height fcos fsin texture
              tex_width tex_height player_x player_y player_angle y x) })
      fb

/-! ### textures.rs -/

/-- A defined-or-special `f32` value: texture sampling is specified for
non-finite inputs as well, so the special IEEE values are represented
explicitly here. -/
inductive F32 where
  | nan : F32
  | inf : F32
  | ninf : F32
  | fin : ℚ → F32
deriving DecidableEq

/-- Multiplication of an `f32` by a (nonnegative, exactly converted)
dimension: `NaN` propagates and an infinity times zero is `NaN`. -/
def F32.mulNat : F32 → Nat → F32
  | .nan, _ => .nan
  | .inf, n => if n = 0 then .nan else .inf
  | .ninf, n => if n = 0 then .nan else .ninf
  | .fin q, n => .fin (q * (n : ℚ))

/-- Rust `f32 as usize` on a possibly special value: `NaN` and negative
infinity go to 0, positive infinity saturates to `usize::MAX`. -/
def F32.toUsize : F32 → Nat
  | .nan => 0
  | .inf => usizeMax
  | .ninf => 0
  | .fin q => f32ToUsize q

/-- The `Texture` struct of textures.rs. -/
structure Texture where
  pixels : List Color
  width : Nat
  height : Nat

/-- The clamped pixel coordinates computed by `Texture::sample`:
`x = ((u * width) as usize).min(width - 1)` and likewise for `y`. -/
def Texture.sampleXY (t : Texture) (u v : F32) : Nat × Nat :=
  (min (F32.toUsize (u.mulNat t.width)) (t.width - 1),
   min (F32.toUsize (v.mulNat t.height)) (t.height - 1))

/-- `Texture::sample`: nearest-neighbor lookup at normalized coordinates. -/
def Texture.sample (t : Texture) (u v : F32) : Color :=
  let xy := t.sampleXY u v
  t.pixels.getD (xy.2 * t.width + xy.1) defaultColor

/-- `Texture::sample_point`: pixel-exact lookup with clamping. -/
def Texture.sample_point (t : Texture) (tex_x tex_y : Nat) : Color :=
  let x := min tex_x (t.width - 1)
  let y := min tex_y (t.height - 1)
  t.pixels.getD (y * t.width + x) defaultColor

/-! ### player.rs and caster.rs -/

/-- The `Vector2` position type of player.rs. -/
structure Vector2 where
  x : ℚ
  y : ℚ

/-- The `Player` fields read by the caster. -/
structure Player where
  pos : Vector2
  angle : ℚ

/-- The `RayHit` struct of caster.rs. -/
structure RayHit where
  distance : ℚ
  wall_x : ℚ
  hit_vertical : Bool
  map_x : Nat
  map_y : Nat
deriving DecidableEq

/-- The `RayCaster` struct of caster.rs with its precomputed angles. -/
structure RayCaster where
  fov : ℚ
  num_rays : Nat
  max_depth : ℚ
  ray_angles : List ℚ

/-- `RayCaster::new`: precompute `num_rays` angle offsets
`-fov/2 + (fov/num_rays) * i`. -/
def RayCaster.new (fov : ℚ) (num_rays : Nat) (max_depth : ℚ) : RayCaster :=
  let angle_step := fov / (num_rays : ℚ)
  let half_fov := fov / 2
  { fov := fov, num_rays := num_rays, max_depth := max_depth,
    ray_angles := (List.range num_rays).map fun i : Nat => -half_fov + angle_step * (i : ℚ) }

/-- The per-axis grid-line step distance of caster.rs lines 59–60:
`if dir == 0.0 { f32::MAX } else { (1.0 / dir).abs() }`. -/
def deltaDist (dir : ℚ) : ℚ := if dir = 0 then f32Max else |1 / dir|

/-- Fuel-indexed search for `⌊log₂ q⌋` of a rational below 1: the number
of doublings needed to reach 1.  Structural recursion keeps kernel
reduction available on concrete inputs. -/
def qlog2Neg : Nat → ℚ → Nat
  | 0, _ => 0
  | fuel + 1, q => if 1 ≤ q then 0 else qlog2Neg fuel (q * 2) + 1

/-- Fuel-indexed search for `⌊log₂ q⌋` of a rational at least 1: the
number of halvings until the value drops below 2. -/
def qlog2Pos : Nat → ℚ → Nat
  | 0, _ => 0
  | fuel + 1, q => if q < 2 then 0 else qlog2Pos fuel (q / 2) + 1

/-- `⌊log₂ q⌋` for a positive rational.  The constant fuel 300 covers
the entire IEEE binary32 exponent range `[-149, 127]`, so the search is
exact on every value an f32 computation can produce. -/
def qlog2 (q : ℚ) : Int :=
  if 1 ≤ q then (qlog2Pos 300 q : Int) else -(qlog2Neg 300 q : Int)

/-- Round a rational to an integer, ties to even — the IEEE-754 default
rounding applied at integer granularity. -/
def roundNEInt (x : ℚ) : Int :=
  if x - (⌊x⌋ : ℚ) < 1 / 2 then ⌊x⌋
  else if 1 / 2 < x - (⌊x⌋ : ℚ) then ⌊x⌋ + 1
  else if ⌊x⌋ % 2 = 0 then ⌊x⌋ else ⌊x⌋ + 1

/-- IEEE-754 binary32 round-to-nearest-even: round to the nearest
multiple of the value's unit in the last place `2 ^ (⌊log₂ |q|⌋ - 23)`,
ties to even.  Exponent range is unbounded (no subnormal flush and no
overflow to infinity); the verified uses stay in the normal range. -/
def fl32 (q : ℚ) : ℚ :=
  if q = 0 then 0
  else
    let e : Int := qlog2 |q|
    let u : ℚ := 2 ^ (e - 23)
    u * (roundNEInt (q / u) : ℚ)

/-- State of the DDA `while` loop: current cell and accumulated
side distances. -/
structure DDAState where
  map_x : Int
  map_y : Int
  side_dist_x : ℚ
  side_dist_y : ℚ
  hit_vertical : Bool

/-- One jump of the DDA loop: advance along the axis with the smaller
accumulated side distance. -/
def ddaStep (ddx ddy : ℚ) (sx sy : Int) (s : DDAState) : DDAState :=
  if s.side_dist_x < s.side_dist_y then
    { s with side_dist_x := s.side_dist_x + ddx, map_x := s.map_x + sx, hit_vertical := true }
  else
    { s with side_dist_y := s.side_dist_y + ddy, map_y := s.map_y + sy, hit_vertical := false }

/-- The `while !hit` loop of `cast_single_ray`, with explicit fuel.  The
source loop is unbounded; `castFuel` below is proved sufficient.  The
out-of-bounds test uses the wrapped `usize as i32` width and height, as
the source's `maze.width as i32` does. -/
def ddaLoop (m : Maze) (ddx ddy : ℚ) (sx sy : Int) : Nat → DDAState → Option DDAState
  | 0, _ => none
  | fuel + 1, s =>
    if (ddaStep ddx ddy sx sy s).map_x < 0 ∨ (ddaStep ddx ddy sx sy s).map_y < 0 ∨
        usizeToI32 m.width ≤ (ddaStep ddx ddy sx sy s).map_x ∨
        usizeToI32 m.height ≤ (ddaStep ddx ddy sx sy s).map_y then
      some (ddaStep ddx ddy sx sy s)
    else if m.is_wall (ddaStep ddx ddy sx sy s).map_x.toNat
        (ddaStep ddx ddy sx sy s).map_y.toNat then
      some (ddaStep ddx ddy sx sy s)
    else
      ddaLoop m ddx ddy sx sy fuel (ddaStep ddx ddy sx sy s)

/-- Fuel sufficient for the DDA loop (proved below): one step per cell
the traversal can visit, plus the entering and leaving steps. -/
def castFuel (m : Maze) : Nat := m.width + m.height + 2

/-- `RayCaster::cast_single_ray`, parameterized by the external `cos`
and `sin` (`fcos`, `fsin`).  Returns `none` only on fuel exhaustion,
which the termination theorem rules out.  The final fractional-part
line `let wall_x = wall_x - wall_x.floor();` carries the f32 rounding
of the subtraction (`fl32`): the true difference lies in `[0, 1)` but
the rounded f32 result can be exactly 1.0, so that rounding is modelled
explicitly; the remaining arithmetic is exact. -/
def RayCaster.cast_single_ray (rc : RayCaster) (fcos fsin : ℚ → ℚ)
    (origin_x origin_y angle : ℚ) (m : Maze) : Option RayHit :=
  let _ := rc
  let dir_x := fcos angle
  let dir_y := fsin angle
  let map_x := f32ToI32 (origin_x / m.tile_size)
  let map_y := f32ToI32 (origin_y / m.tile_size)
  let delta_dist_x := deltaDist dir_x
  let delta_dist_y := deltaDist dir_y
  let step_x : Int := if dir_x < 0 then -1 else 1
  let step_y : Int := if dir_y < 0 then -1 else 1
  let side_dist_x :=
    if dir_x < 0 then (origin_x / m.tile_size - (map_x : ℚ)) * delta_dist_x
    else ((map_x : ℚ) + 1 - origin_x / m.tile_size) * delta_dist_x
  let side_dist_y :=
    if dir_y < 0 then (origin_y / m.tile_size - (map_y : ℚ)) * delta_dist_y
    else ((map_y : ℚ) + 1 - origin_y / m.tile_size) * delta_dist_y
  (ddaLoop m delta_dist_x delta_dist_y step_x step_y (castFuel m)
      ⟨map_x, map_y, side_dist_x, side_dist_y, false⟩).map fun s =>
    let distance :=
      if s.hit_vertical then
        ((s.map_x : ℚ) - origin_x / m.tile_size + (1 - (step_x : ℚ)) / 2) / dir_x
      else
        ((s.map_y : ℚ) - origin_y / m.tile_size + (1 - (step_y : ℚ)) / 2) / dir_y
    let wall_x0 :=
      if s.hit_vertical then origin_y / m.tile_size + distance * dir_y
      else origin_x / m.tile_size + distance * dir_x
    let wall_x := fl32 (wall_x0 - (⌊wall_x0⌋ : ℚ))
    { distance := |distance| * m.tile_size, wall_x := wall_x,
      hit_vertical := s.hit_vertical,
      map_x := i32ToUsize s.map_x, map_y := i32ToUsize s.map_y }

/-- `RayCaster::cast_rays`: map `cast_single_ray` over the precomputed
angle offsets added to the player's heading. -/
def RayCaster.cast_rays (rc : RayCaster) (fcos fsin : ℚ → ℚ)
    (player : Player) (m : Maze) : List (Option RayHit) :=
  rc.ray_angles.map fun ray_offset =>
    rc.cast_single_ray fcos fsin player.pos.x player.pos.y (player.angle + ray_offset) m

/-- The 5×5 bordered maze of the spec's end-to-end scenario, used as a
concrete input for witnesses. -/
def mazeFive : Maze :=
  ⟨[['#', '#', '#', '#', '#'],
    ['#', '.', '.', '.', '#'],
    ['#', '.', '.', '.', '#'],
    ['#', '.', '.', '.', '#'],
    ['#', '#', '#', '#', '#']], 5, 5, 1⟩

/-- In-bounds predicate for a DDA state, with respect to the wrapped
`i32` width and height the loop's bounds test uses. -/
def DDAState.inB (W H : Int) (s : DDAState) : Prop :=
  0 ≤ s.map_x ∧ s.map_x < W ∧ 0 ≤ s.map_y ∧ s.map_y < H

/-- Number of grid-line crossings still available to the traversal
before it must leave the grid: per axis, the distance (in cells) to the
boundary in the fixed step direction. -/
def ddaMeasure (W H sx sy : Int) (s : DDAState) : Nat :=
  (if sx < 0 then s.map_x + 1 else W - s.map_x).toNat +
  (if sy < 0 then s.map_y + 1 else H - s.map_y).toNat

/-! ### Helper lemmas -/

theorem f32ToU8_natCast (n : Nat) (h : n ≤ 255) : f32ToU8 (n : ℚ) = n := by
  unfold f32ToU8 ratTrunc
  rw [if_neg (not_lt.mpr (by positivity)), Int.floor_natCast, Int.toNat_natCast]
  exact Nat.min_eq_left h

theorem get_tile_oob (m : Maze) (hWF : m.WF) (x y : Nat)
    (h : m.width ≤ x ∨ m.height ≤ y) : m.get_tile x y = none := by
  obtain ⟨hlen, hrow⟩ := hWF
  unfold Maze.get_tile
  rcases h with hx | hy
  · cases hy : m.map[y]? with
    | none => rfl
    | some row =>
      have hmem : row ∈ m.map := List.getElem?_mem hy
      have : row.length ≤ x := by rw [hrow row hmem]; exact hx
      simp [List.getElem?_eq_none this]
  · have : m.map.length ≤ y := by omega
    simp [List.getElem?_eq_none this]

theorem is_wall_of_get_tile_none (m : Maze) (x y : Nat)
    (h : m.get_tile x y = none) : m.is_wall x y = false := by
  unfold Maze.is_wall
  rw [h]

/-! ### Claim theorems -/

/-- C1, counterexample: in the well-formed 1×1 maze whose single cell is
a wall, the out-of-bounds query `is_wall 1 0` returns `false`, not
`true` as the claim states; consequently `is_walkable` reports the world
position `(1.5, 0.5)`, whose cell `(1, 0)` is out of bounds, as
walkable. -/
theorem oob_wall_query_counterexample :
    mazeOne.WF ∧ mazeOne.width ≤ 1 ∧ mazeOne.is_wall 1 0 = false ∧
    mazeOne.is_walkable (3 / 2) (1 / 2) = true := by
  refine ⟨by decide, by decide, by decide, by with_unfolding_all decide⟩

/-- C1 (amended): for every well-formed maze, `is_wall` treats every
out-of-bounds cell as empty (returns `false`), and `is_walkable`
consequently reports every world position whose cell is out of bounds
as walkable; the opaque-boundary behavior lives in the caster's
traversal, not in the grid query. -/
theorem oob_cells_are_not_walls (m : Maze) (hWF : m.WF) :
    (∀ x y : Nat, m.width ≤ x ∨ m.height ≤ y → m.is_wall x y = false) ∧
    (∀ wx wy : ℚ,
      m.width ≤ f32ToUsize (wx / m.tile_size) ∨
        m.height ≤ f32ToUsize (wy / m.tile_size) →
      m.is_walkable wx wy = true) := by
  constructor
  · intro x y h
    exact is_wall_of_get_tile_none m x y (get_tile_oob m hWF x y h)
  · intro wx wy h
    have hw := is_wall_of_get_tile_none m _ _ (get_tile_oob m hWF _ _ h)
    unfold Maze.is_walkable
    simp only [hw, Bool.not_false]

/-- Witness for C1's amended theorem at the concrete 1×1 maze. -/
theorem oob_cells_are_not_walls_witness :
    mazeOne.is_wall 2 0 = false ∧ mazeOne.is_walkable (3 / 2) (1 / 2) = true :=
  ⟨(oob_cells_are_not_walls mazeOne (by decide)).1 2 0 (Or.inl (by decide)),
   (oob_cells_are_not_walls mazeOne (by decide)).2 (3 / 2) (1 / 2)
     (Or.inl (by with_unfolding_all decide))⟩

/-- C10: `Framebuffer::set_pixel` with an out-of-bounds coordinate
leaves the framebuffer unchanged; with in-bounds coordinates it writes
exactly the row-major index `y * width + x` and no other element. -/
theorem set_pixel_frame_effect (fb : Framebuffer) (x y : Nat) (c : Color) :
    (fb.width ≤ x ∨ fb.height ≤ y → fb.set_pixel x y c = fb) ∧
    (x < fb.width → y < fb.height → fb.buffer.length = fb.width * fb.height →
      ((fb.set_pixel x y c).buffer)[y * fb.width + x]? = some c ∧
      ∀ i : Nat, i ≠ y * fb.width + x →
        ((fb.set_pixel x y c).buffer)[i]? = fb.buffer[i]?) := by
  constructor
  · intro h
    unfold Framebuffer.set_pixel
    rw [if_neg (by omega)]
  · intro hx hy hlen
    unfold Framebuffer.set_pixel
    rw [if_pos ⟨hx, hy⟩]
    have hidx : y * fb.width + x < fb.buffer.length := by
      have h1 : y * fb.width + x < (y + 1) * fb.width := by
        rw [Nat.succ_mul]; omega
      have h2 : (y + 1) * fb.width ≤ fb.height * fb.width :=
        Nat.mul_le_mul_right _ (by omega)
      rw [hlen, Nat.mul_comm fb.width fb.height]
      exact lt_of_lt_of_le h1 h2
    constructor
    · exact List.getElem?_set_self hidx
    · intro i hi
      exact List.getElem?_set_ne (fun h => hi h.symm)

/-- Witness for C10 at a concrete 2×2 framebuffer. -/
theorem set_pixel_frame_effect_witness :
    ((Framebuffer.set_pixel ⟨2, 2, [defaultColor, defaultColor, defaultColor,
        defaultColor]⟩ 1 0 ⟨1, 2, 3, 255⟩).buffer)[1]? = some ⟨1, 2, 3, 255⟩ ∧
    (Framebuffer.set_pixel ⟨2, 2, [defaultColor, defaultColor, defaultColor,
        defaultColor]⟩ 5 0 ⟨1, 2, 3, 255⟩) =
      ⟨2, 2, [defaultColor, defaultColor, defaultColor, defaultColor]⟩ :=
  ⟨((set_pixel_frame_effect ⟨2, 2, [defaultColor, defaultColor, defaultColor,
      defaultColor]⟩ 1 0 ⟨1, 2, 3, 255⟩).2 (by decide) (by decide) (by decide)).1,
   (set_pixel_frame_effect ⟨2, 2, [defaultColor, defaultColor, defaultColor,
      defaultColor]⟩ 5 0 ⟨1, 2, 3, 255⟩).1 (Or.inl (by decide))⟩

/-- Unfolding equation for `Framebuffer.apply_fog`. -/
theorem fb_apply_fog_eq (c f : Color) (d md : ℚ) :
    Framebuffer.apply_fog c d md f =
      ⟨f32ToU8 ((1 - min (d / md) 1) * (c.r : ℚ) + min (d / md) 1 * (f.r : ℚ)),
       f32ToU8 ((1 - min (d / md) 1) * (c.g : ℚ) + min (d / md) 1 * (f.g : ℚ)),
       f32ToU8 ((1 - min (d / md) 1) * (c.b : ℚ) + min (d / md) 1 * (f.b : ℚ)),
       255⟩ := rfl

/-- Unfolding equation for `Effects.apply_fog` when fog is enabled. -/
theorem effects_apply_fog_eq (e : Effects) (hen : e.fog_enabled = true)
    (c : Color) (d : ℚ) :
    e.apply_fog c d =
      ⟨f32ToU8 ((1 - qclamp (d / e.fog_distance) 0 1) * (c.r : ℚ) +
          qclamp (d / e.fog_distance) 0 1 * (e.fog_color.r : ℚ)),
       f32ToU8 ((1 - qclamp (d / e.fog_distance) 0 1) * (c.g : ℚ) +
          qclamp (d / e.fog_distance) 0 1 * (e.fog_color.g : ℚ)),
       f32ToU8 ((1 - qclamp (d / e.fog_distance) 0 1) * (c.b : ℚ) +
          qclamp (d / e.fog_distance) 0 1 * (e.fog_color.b : ℚ)),
       255⟩ := by
  unfold Effects.apply_fog
  rw [hen]
  rfl

/-- C7, counterexample: fog blending at distance 0 rebuilds the alpha
channel as 255, so a color with a different alpha is not returned
unchanged; and the default `Effects` has fog disabled, so its
`apply_fog` at the fog distance returns the input instead of the fog
color. -/
theorem fog_blend_counterexample :
    Framebuffer.apply_fog ⟨10, 20, 30, 0⟩ 0 15 ⟨80, 75, 50, 255⟩ ≠ ⟨10, 20, 30, 0⟩ ∧
    Effects.new.apply_fog ⟨255, 255, 255, 255⟩ 15 ≠ Effects.new.fog_color := by
  with_unfolding_all decide

/-- C7 (amended): for colors whose channels are valid `u8` values and
whose alpha is 255, with a nonzero positive fog distance (and, for
`Effects::apply_fog`, fog enabled), fog blending at distance 0 returns
the input color unchanged and at the fog distance returns exactly the
fog color. -/
theorem fog_blend_endpoints (c f : Color) (e : Effects) (fd : ℚ)
    (hca : c.a = 255) (hcr : c.r ≤ 255) (hcg : c.g ≤ 255) (hcb : c.b ≤ 255)
    (hfa : f.a = 255) (hfr : f.r ≤ 255) (hfg : f.g ≤ 255) (hfb : f.b ≤ 255)
    (hfd : 0 < fd) (hen : e.fog_enabled = true) (hed : 0 < e.fog_distance)
    (her : e.fog_color.r ≤ 255) (heg : e.fog_color.g ≤ 255)
    (heb : e.fog_color.b ≤ 255) (hea : e.fog_color.a = 255) :
    Framebuffer.apply_fog c 0 fd f = c ∧
    Framebuffer.apply_fog c fd fd f = f ∧
    e.apply_fog c 0 = c ∧
    e.apply_fog c e.fog_distance = e.fog_color := by
  have hq0 : ∀ x y : Nat, x ≤ 255 → f32ToU8 ((1 - (0 : ℚ)) * (x : ℚ) + 0 * (y : ℚ)) = x := by
    intro x y hx
    rw [show (1 - (0 : ℚ)) * (x : ℚ) + 0 * (y : ℚ) = (x : ℚ) by ring]
    exact f32ToU8_natCast x hx
  have hq1 : ∀ x y : Nat, y ≤ 255 → f32ToU8 ((1 - (1 : ℚ)) * (x : ℚ) + 1 * (y : ℚ)) = y := by
    intro x y hy
    rw [show (1 - (1 : ℚ)) * (x : ℚ) + 1 * (y : ℚ) = (y : ℚ) by ring]
    exact f32ToU8_natCast y hy
  refine ⟨?_, ?_, ?_, ?_⟩
  · rw [fb_apply_fog_eq, zero_div, show min (0 : ℚ) 1 = 0 from min_eq_left (by norm_num),
      hq0 c.r f.r hcr, hq0 c.g f.g hcg, hq0 c.b f.b hcb]
    cases c
    simp_all
  · rw [fb_apply_fog_eq, div_self (ne_of_gt hfd), min_self,
      hq1 c.r f.r hfr, hq1 c.g f.g hfg, hq1 c.b f.b hfb]
    cases f
    simp_all
  · rw [effects_apply_fog_eq e hen, zero_div,
      show qclamp (0 : ℚ) 0 1 = 0 by unfold qclamp; simp,
      hq0 c.r e.fog_color.r hcr, hq0 c.g e.fog_color.g hcg, hq0 c.b e.fog_color.b hcb]
    cases c
    simp_all
  · rw [effects_apply_fog_eq e hen, div_self (ne_of_gt hed),
      show qclamp (1 : ℚ) 0 1 = 1 by unfold qclamp; simp,
      hq1 c.r e.fog_color.r her, hq1 c.g e.fog_color.g heg, hq1 c.b e.fog_color.b heb]
    rcases e with ⟨en, fdist, ⟨fr, fg, fb2, fa⟩⟩
    simp_all

/-- Witness for C7's amended theorem at concrete colors and a concrete
enabled-fog effect state. -/
theorem fog_blend_endpoints_witness :
    Framebuffer.apply_fog ⟨100, 150, 200, 255⟩ 0 15 ⟨80, 75, 50, 255⟩ =
      ⟨100, 150, 200, 255⟩ ∧
    Framebuffer.apply_fog ⟨100, 150, 200, 255⟩ 15 15 ⟨80, 75, 50, 255⟩ =
      ⟨80, 75, 50, 255⟩ ∧
    Effects.apply_fog ⟨true, 15, ⟨80, 75, 50, 255⟩⟩ ⟨100, 150, 200, 255⟩ 0 =
      ⟨100, 150, 200, 255⟩ ∧
    Effects.apply_fog ⟨true, 15, ⟨80, 75, 50, 255⟩⟩ ⟨100, 150, 200, 255⟩ 15 =
      ⟨80, 75, 50, 255⟩ :=
  fog_blend_endpoints ⟨100, 150, 200, 255⟩ ⟨80, 75, 50, 255⟩
    ⟨true, 15, ⟨80, 75, 50, 255⟩⟩ 15 rfl (by decide) (by decide) (by decide)
    rfl (by decide) (by decide) (by decide) (by norm_num) rfl (by norm_num)
    (by decide) (by decide) (by decide) rfl

/-- C8, counterexample: with a negative `max_distance` the shading is
not monotone non-increasing: at `max_distance = -1` the distance `-1`
gets brightness 3/4 while the larger distance `0` gets brightness 1. -/
theorem distance_shading_counterexample :
    (-1 : ℚ) < 0 ∧
    Effects.new.calculate_distance_shading (-1) (-1) <
      Effects.new.calculate_distance_shading 0 (-1) := by
  with_unfolding_all decide

/-- C8 (amended): for every positive `max_distance`, distance shading is
monotone non-increasing in the distance, and for every distance and
every nonzero `max_distance` the returned brightness lies in `[3/4, 1]`
— clamped to the fixed positive minimum 0.75, so the linear falloff
never reaches zero.  (At `max_distance = 0` with distance 0 the source
computes `0.0/0.0`, which is NaN, so that point is excluded.) -/
theorem distance_shading_monotone (e : Effects) (d1 d2 maxd : ℚ)
    (hmax : 0 < maxd) (h12 : d1 < d2) :
    e.calculate_distance_shading d2 maxd ≤ e.calculate_distance_shading d1 maxd ∧
    ∀ d md : ℚ, md ≠ 0 → 3 / 4 ≤ e.calculate_distance_shading d md ∧
      e.calculate_distance_shading d md ≤ 1 := by
  constructor
  · simp only [Effects.calculate_distance_shading, qclamp]
    have hdiv : d1 / maxd ≤ d2 / maxd := (div_le_div_iff_of_pos_right hmax).mpr h12.le
    have hle : max 0 (min 1 (d1 / maxd)) ≤ max 0 (min 1 (d2 / maxd)) :=
      max_le_max le_rfl (min_le_min le_rfl hdiv)
    linarith
  · intro d md _
    simp only [Effects.calculate_distance_shading, qclamp]
    have h1 : max 0 (min 1 (d / md)) ≤ 1 := max_le (by norm_num) (min_le_left _ _)
    have h0 : 0 ≤ max 0 (min 1 (d / md)) := le_max_left _ _
    constructor <;> linarith

/-- Witness for C8's amended theorem at concrete distances 1 < 2 with
maximum distance 15, and the brightness bound at distance 20. -/
theorem distance_shading_monotone_witness :
    Effects.new.calculate_distance_shading 2 15 ≤
      Effects.new.calculate_distance_shading 1 15 ∧
    3 / 4 ≤ Effects.new.calculate_distance_shading 20 15 ∧
    Effects.new.calculate_distance_shading 20 15 ≤ 1 :=
  ⟨(distance_shading_monotone Effects.new 1 2 15 (by norm_num) (by norm_num)).1,
   (distance_shading_monotone Effects.new 1 2 15 (by norm_num) (by norm_num)).2
     20 15 (by norm_num)⟩

/-- An in-range `getD` lookup returns an element of the list. -/
theorem getD_mem_of_lt (l : List Color) (i : Nat) (d : Color) (h : i < l.length) :
    l.getD i d ∈ l := by
  rw [List.getD_eq_getElem?_getD, List.getElem?_eq_getElem h]
  exact List.getElem_mem h

/-- C9: for every texture with positive dimensions and a full pixel
buffer, `Texture::sample` (for every normalized input, including
negative, out-of-range and non-finite values) and
`Texture::sample_point` (for every pixel input) clamp the computed
indices to `[0, dimension - 1]`, index strictly inside the pixel
buffer, and return one of the texture's pixels. -/
theorem texture_sample_clamps (t : Texture) (u v : F32) (tx ty : Nat)
    (hw : 1 ≤ t.width) (hh : 1 ≤ t.height)
    (hlen : t.pixels.length = t.width * t.height) :
    (t.sampleXY u v).1 < t.width ∧ (t.sampleXY u v).2 < t.height ∧
    (t.sampleXY u v).2 * t.width + (t.sampleXY u v).1 < t.pixels.length ∧
    t.sample u v ∈ t.pixels ∧
    min tx (t.width - 1) < t.width ∧ min ty (t.height - 1) < t.height ∧
    t.sample_point tx ty ∈ t.pixels := by
  have hx : (t.sampleXY u v).1 ≤ t.width - 1 := min_le_right _ _
  have hy : (t.sampleXY u v).2 ≤ t.height - 1 := min_le_right _ _
  have hidx : (t.sampleXY u v).2 * t.width + (t.sampleXY u v).1 < t.pixels.length := by
    have h1 : (t.sampleXY u v).2 * t.width + (t.sampleXY u v).1 <
        ((t.sampleXY u v).2 + 1) * t.width := by
      rw [Nat.succ_mul]; omega
    have h2 : ((t.sampleXY u v).2 + 1) * t.width ≤ t.height * t.width :=
      Nat.mul_le_mul_right _ (by omega)
    rw [hlen, Nat.mul_comm t.width t.height]
    exact lt_of_lt_of_le h1 h2
  have hpx : min tx (t.width - 1) ≤ t.width - 1 := min_le_right _ _
  have hpy : min ty (t.height - 1) ≤ t.height - 1 := min_le_right _ _
  have hpidx : min ty (t.height - 1) * t.width + min tx (t.width - 1) <
      t.pixels.length := by
    have h1 : min ty (t.height - 1) * t.width + min tx (t.width - 1) <
        (min ty (t.height - 1) + 1) * t.width := by
      rw [Nat.succ_mul]; omega
    have h2 : (min ty (t.height - 1) + 1) * t.width ≤ t.height * t.width :=
      Nat.mul_le_mul_right _ (by omega)
    rw [hlen, Nat.mul_comm t.width t.height]
    exact lt_of_lt_of_le h1 h2
  refine ⟨by omega, by omega, hidx, ?_, by omega, by omega, ?_⟩
  · exact getD_mem_of_lt t.pixels _ defaultColor hidx
  · exact getD_mem_of_lt t.pixels _ defaultColor hpidx

/-- Witness for C9 at a concrete 2×1 texture, a non-integral `u`, a NaN
`v`, and out-of-range pixel coordinates. -/
theorem texture_sample_clamps_witness :
    Texture.sample ⟨[defaultColor, ⟨1, 2, 3, 255⟩], 2, 1⟩ (F32.fin (3 / 2)) F32.nan ∈
      [defaultColor, ⟨1, 2, 3, 255⟩] ∧
    Texture.sample_point ⟨[defaultColor, ⟨1, 2, 3, 255⟩], 2, 1⟩ 99 99 ∈
      [defaultColor, ⟨1, 2, 3, 255⟩] :=
  ⟨(texture_sample_clamps ⟨[defaultColor, ⟨1, 2, 3, 255⟩], 2, 1⟩ (F32.fin (3 / 2))
      F32.nan 99 99 (by decide) (by decide) (by decide)).2.2.2.1,
   (texture_sample_clamps ⟨[defaultColor, ⟨1, 2, 3, 255⟩], 2, 1⟩ (F32.fin (3 / 2))
      F32.nan 99 99 (by decide) (by decide) (by decide)).2.2.2.2.2.2⟩

/-- The fractional part `q - ⌊q⌋` lies in `[0, 1)`. -/
theorem sub_floor_bounds (q : ℚ) : 0 ≤ q - (⌊q⌋ : ℚ) ∧ q - (⌊q⌋ : ℚ) < 1 :=
  ⟨by have := Int.fract_nonneg q; rwa [Int.fract] at this,
   by have := Int.fract_lt_one q; rwa [Int.fract] at this⟩

/-- The wrapped `usize as i32` value never exceeds the original. -/
theorem usizeToI32_toNat_le (n : Nat) : (usizeToI32 n).toNat ≤ n := by
  simp only [usizeToI32]
  split <;> omega

/-- One DDA jump from an in-bounds state decrements the traversal
measure by exactly one. -/
theorem ddaMeasure_step (W H : Int) (ddx ddy : ℚ) (sx sy : Int)
    (hsx : sx = -1 ∨ sx = 1) (hsy : sy = -1 ∨ sy = 1)
    (s : DDAState) (hs : s.inB W H) :
    ddaMeasure W H sx sy (ddaStep ddx ddy sx sy s) + 1 = ddaMeasure W H sx sy s := by
  obtain ⟨h1, h2, h3, h4⟩ := hs
  unfold ddaStep ddaMeasure
  by_cases hc : s.side_dist_x < s.side_dist_y
  · rw [if_pos hc]
    dsimp only
    rcases hsx with rfl | rfl <;> rcases hsy with rfl | rfl <;> norm_num <;> omega
  · rw [if_neg hc]
    dsimp only
    rcases hsx with rfl | rfl <;> rcases hsy with rfl | rfl <;> norm_num <;> omega

/-- With fuel exceeding the measure, the DDA loop from an in-bounds
state returns a result. -/
theorem ddaLoop_isSome_of (m : Maze) (ddx ddy : ℚ) (sx sy : Int)
    (hsx : sx = -1 ∨ sx = 1) (hsy : sy = -1 ∨ sy = 1) :
    ∀ fuel s, s.inB (usizeToI32 m.width) (usizeToI32 m.height) →
      ddaMeasure (usizeToI32 m.width) (usizeToI32 m.height) sx sy s < fuel →
      (ddaLoop m ddx ddy sx sy fuel s).isSome = true := by
  intro fuel
  induction fuel with
  | zero => intro s _ hlt; exact absurd hlt (by omega)
  | succ n ih =>
    intro s hs hlt
    rw [ddaLoop]
    by_cases hob : (ddaStep ddx ddy sx sy s).map_x < 0 ∨
        (ddaStep ddx ddy sx sy s).map_y < 0 ∨
        usizeToI32 m.width ≤ (ddaStep ddx ddy sx sy s).map_x ∨
        usizeToI32 m.height ≤ (ddaStep ddx ddy sx sy s).map_y
    · rw [if_pos hob]; rfl
    · rw [if_neg hob]
      by_cases hw : m.is_wall (ddaStep ddx ddy sx sy s).map_x.toNat
          (ddaStep ddx ddy sx sy s).map_y.toNat = true
      · rw [if_pos hw]; rfl
      · rw [if_neg hw]
        push_neg at hob
        apply ih
        · exact ⟨hob.1, hob.2.2.1, hob.2.1, hob.2.2.2⟩
        · have := ddaMeasure_step (usizeToI32 m.width) (usizeToI32 m.height)
            ddx ddy sx sy hsx hsy s hs
          omega

/-- An in-bounds state's measure is bounded by the grid dimensions. -/
theorem ddaMeasure_le (W H sx sy : Int) (s : DDAState) (hs : s.inB W H) :
    ddaMeasure W H sx sy s ≤ W.toNat + H.toNat := by
  obtain ⟨h1, h2, h3, h4⟩ := hs
  simp only [ddaMeasure]
  split <;> split <;> omega

/-- The DDA loop with fuel `castFuel` always returns a result, from any
starting state. -/
theorem ddaLoop_castFuel_isSome (m : Maze) (ddx ddy : ℚ) (sx sy : Int)
    (hsx : sx = -1 ∨ sx = 1) (hsy : sy = -1 ∨ sy = 1) (s : DDAState) :
    (ddaLoop m ddx ddy sx sy (castFuel m) s).isSome = true := by
  rw [show castFuel m = (m.width + m.height + 1) + 1 from rfl, ddaLoop]
  by_cases hob : (ddaStep ddx ddy sx sy s).map_x < 0 ∨
      (ddaStep ddx ddy sx sy s).map_y < 0 ∨
      usizeToI32 m.width ≤ (ddaStep ddx ddy sx sy s).map_x ∨
      usizeToI32 m.height ≤ (ddaStep ddx ddy sx sy s).map_y
  · rw [if_pos hob]; rfl
  · rw [if_neg hob]
    by_cases hw : m.is_wall (ddaStep ddx ddy sx sy s).map_x.toNat
        (ddaStep ddx ddy sx sy s).map_y.toNat = true
    · rw [if_pos hw]; rfl
    · rw [if_neg hw]
      push_neg at hob
      have hin : (ddaStep ddx ddy sx sy s).inB (usizeToI32 m.width)
          (usizeToI32 m.height) := ⟨hob.1, hob.2.2.1, hob.2.1, hob.2.2.2⟩
      apply ddaLoop_isSome_of m ddx ddy sx sy hsx hsy _ _ hin
      have hb := ddaMeasure_le (usizeToI32 m.width) (usizeToI32 m.height) sx sy _ hin
      have hw1 := usizeToI32_toNat_le m.width
      have hh1 := usizeToI32_toNat_le m.height
      omega

/-- `cast_single_ray` always returns a hit: the DDA loop exits within
the grid-dimension fuel bound for every origin, direction, and maze. -/
theorem cast_single_ray_isSome (rc : RayCaster) (fcos fsin : ℚ → ℚ)
    (ox oy angle : ℚ) (m : Maze) :
    (rc.cast_single_ray fcos fsin ox oy angle m).isSome = true := by
  simp only [RayCaster.cast_single_ray, Option.isSome_map']
  apply ddaLoop_castFuel_isSome
  · by_cases h : fcos angle < 0
    · rw [if_pos h]; left; rfl
    · rw [if_neg h]; right; rfl
  · by_cases h : fsin angle < 0
    · rw [if_pos h]; left; rfl
    · rw [if_neg h]; right; rfl

/-- C5: for every origin, angle (any external cos/sin values), and grid,
the DDA traversal of `cast_single_ray` terminates within the fuel bound
`width + height + 2` determined by the grid dimensions and returns a
`RayHit` — including off-grid starts and starts inside a wall; the loop
never runs forever. -/
theorem dda_traversal_terminates (rc : RayCaster) (fcos fsin : ℚ → ℚ)
    (ox oy angle : ℚ) (m : Maze) :
    castFuel m = m.width + m.height + 2 ∧
    ∃ hit : RayHit, rc.cast_single_ray fcos fsin ox oy angle m = some hit :=
  ⟨rfl, by
    rw [← Option.isSome_iff_exists]
    exact cast_single_ray_isSome rc fcos fsin ox oy angle m⟩

/-- C6: a direction component that is exactly zero is not divided by:
its per-axis step distance is set to `f32::MAX`, and the ray cast still
returns a hit. -/
theorem zero_direction_component_safe (rc : RayCaster) (fcos fsin : ℚ → ℚ)
    (ox oy angle : ℚ) (m : Maze) :
    (fcos angle = 0 → deltaDist (fcos angle) = f32Max) ∧
    (fsin angle = 0 → deltaDist (fsin angle) = f32Max) ∧
    (rc.cast_single_ray fcos fsin ox oy angle m).isSome = true := by
  refine ⟨fun h => ?_, fun h => ?_, cast_single_ray_isSome rc fcos fsin ox oy angle m⟩
  · unfold deltaDist; rw [if_pos h]
  · unfold deltaDist; rw [if_pos h]

/-- Witness for C6 with a vertical ray (`cos = 0`) at a concrete input. -/
theorem zero_direction_witness :
    deltaDist 0 = f32Max ∧
    ((RayCaster.new 1 1 10).cast_single_ray (fun _ => 0) (fun _ => 1)
      (1 / 2) (1 / 2) 0 mazeOne).isSome = true :=
  ⟨(zero_direction_component_safe (RayCaster.new 1 1 10) (fun _ => 0) (fun _ => 1)
      (1 / 2) (1 / 2) 0 mazeOne).1 rfl,
   (zero_direction_component_safe (RayCaster.new 1 1 10) (fun _ => 0) (fun _ => 1)
      (1 / 2) (1 / 2) 0 mazeOne).2.2⟩

/-- Ties-to-even integer rounding moves a value to its floor or its
ceiling, never further. -/
theorem roundNEInt_bounds (x : ℚ) : ⌊x⌋ ≤ roundNEInt x ∧ roundNEInt x ≤ ⌊x⌋ + 1 := by
  unfold roundNEInt
  split_ifs <;> omega

/-- For a rational below 1, the fuel-indexed log search returns a
nonnegative count, so `qlog2` is nonpositive there. -/
theorem qlog2_nonpos (q : ℚ) (h : ¬ 1 ≤ q) : qlog2 q ≤ 0 := by
  unfold qlog2
  rw [if_neg h]
  omega

/-- The f32 rounding of an exact value in `[0, 1)` lies in `[0, 1]`: it
never becomes negative, and it rounds up at most to exactly 1. -/
theorem fl32_unit_interval (t : ℚ) (h0 : 0 ≤ t) (h1 : t < 1) :
    0 ≤ fl32 t ∧ fl32 t ≤ 1 := by
  unfold fl32
  by_cases hz : t = 0
  · rw [if_pos hz]
    norm_num
  · rw [if_neg hz]
    have ht : 0 < t := lt_of_le_of_ne h0 (Ne.symm hz)
    have habs : |t| = t := abs_of_pos ht
    have he : qlog2 |t| ≤ 0 := by
      rw [habs]
      exact qlog2_nonpos t (not_le.mpr h1)
    set e : Int := qlog2 |t| with hedef
    set u : ℚ := 2 ^ (e - 23) with hudef
    have hu : 0 < u := by
      rw [hudef]
      exact zpow_pos (by norm_num) _
    have hrb := roundNEInt_bounds (t / u)
    have hfl0 : (0 : ℤ) ≤ ⌊t / u⌋ := Int.floor_nonneg.mpr (div_nonneg h0 hu.le)
    constructor
    · have : (0 : ℚ) ≤ (roundNEInt (t / u) : ℚ) := by
        exact_mod_cast le_trans hfl0 hrb.1
      exact mul_nonneg hu.le this
    · -- `t/u < 2^(23-e)`, an integer, so the rounding is at most that
      -- integer and `u * 2^(23-e) = 1`.
      have hM0 : (0 : ℤ) ≤ 23 - e := by omega
      have hMq : (((2 ^ (23 - e).toNat : ℤ) : ℚ)) = 2 ^ ((23 : ℤ) - e) := by
        push_cast
        rw [← zpow_natCast, Int.toNat_of_nonneg hM0]
      have huM : u * ((2 ^ (23 - e).toNat : ℤ) : ℚ) = 1 := by
        rw [hMq, hudef, ← zpow_add₀ (by norm_num : (2 : ℚ) ≠ 0)]
        norm_num
      have htu : t / u < ((2 ^ (23 - e).toNat : ℤ) : ℚ) := by
        rw [hMq]
        have h1u : t / u < 1 / u := by
          exact div_lt_div_of_pos_right h1 hu
        have : (1 : ℚ) / u = 2 ^ ((23 : ℤ) - e) := by
          rw [hudef, one_div, ← zpow_neg]
          norm_num
        rwa [this] at h1u
      have hle : roundNEInt (t / u) ≤ (2 : ℤ) ^ (23 - e).toNat := by
        have := Int.floor_lt.mpr htu
        omega
      have : (roundNEInt (t / u) : ℚ) ≤ ((2 ^ (23 - e).toNat : ℤ) : ℚ) := by
        exact_mod_cast hle
      calc u * (roundNEInt (t / u) : ℚ)
          ≤ u * ((2 ^ (23 - e).toNat : ℤ) : ℚ) := by
            exact mul_le_mul_of_nonneg_left this hu.le
        _ = 1 := huM

/-- C4, counterexample: with the f32 rounding of the source's
`wall_x - wall_x.floor()` subtraction modelled, a ray with direction
`(1, 2⁻²⁵)` from origin `(-1/2, -5/2²⁶)` hits a vertical grid line at
distance 3/2 with pre-fraction value `wall_x0` exactly `-2⁻²⁵`, and the
returned `wall_x` is exactly `1.0`: the true difference `1 - 2⁻²⁵` is
the midpoint of the two neighboring f32 values `1 - 2⁻²⁴` and `1`, and
ties-to-even rounds it up to `1`, contradicting the claimed strict
`wall_x < 1`. -/
theorem wall_x_one_counterexample :
    (RayCaster.new 1 1 10).cast_single_ray (fun _ => 1) (fun _ => 1 / 2 ^ 25)
        (-(1 / 2)) (-(5 / 2 ^ 26)) 0 mazeOne =
      some ⟨3 / 2, 1, true, 1, 0⟩ ∧
    ¬ ((RayHit.mk (3 / 2) 1 true 1 0).wall_x < 1) := by
  constructor
  · with_unfolding_all decide
  · with_unfolding_all decide

/-- C4 (amended): the texture-U coordinate `wall_x` of every returned
`RayHit` lies in the closed interval `[0, 1]`: it is never negative, but
the f32 rounding of the final fractional-part subtraction can round it
up to exactly 1.0; it is strictly below 1 only in exact arithmetic. -/
theorem wall_x_in_closed_unit_interval (rc : RayCaster) (fcos fsin : ℚ → ℚ)
    (ox oy angle : ℚ) (m : Maze) (hit : RayHit)
    (h : rc.cast_single_ray fcos fsin ox oy angle m = some hit) :
    0 ≤ hit.wall_x ∧ hit.wall_x ≤ 1 := by
  unfold RayCaster.cast_single_ray at h
  rw [Option.map_eq_some'] at h
  obtain ⟨s, _, hfs⟩ := h
  rw [← hfs]
  exact fl32_unit_interval _ (sub_floor_bounds _).1 (sub_floor_bounds _).2

/-- Witness for C4's amended theorem: the concrete ray of the spec's
end-to-end scenario (5×5 bordered maze, center origin, facing +x)
returns `wall_x = 1/2`. -/
theorem wall_x_closed_witness :
    0 ≤ (RayHit.mk (3 / 2) (1 / 2) true 4 2).wall_x ∧
    (RayHit.mk (3 / 2) (1 / 2) true 4 2).wall_x ≤ 1 :=
  wall_x_in_closed_unit_interval (RayCaster.new 1 3 20) (fun _ => 1) (fun _ => 0)
    (5 / 2) (5 / 2) 0 mazeFive (RayHit.mk (3 / 2) (1 / 2) true 4 2)
    (by with_unfolding_all decide)

/-- C3: `cast_rays` always returns exactly `num_rays` entries, one per
screen column left-to-right; the i-th ray's angle is
`pose.angle - fov/2 + (fov/num_rays) * i`, evenly spaced with step
`fov/num_rays` starting at `pose.angle - fov/2`, and (for positive fov)
lies in the half-open interval `[angle - fov/2, angle + fov/2)`; each
entry is a returned hit (no failure mode). -/
theorem cast_rays_covers_fov (fcos fsin : ℚ → ℚ) (fov max_depth : ℚ)
    (p : Player) (m : Maze) (N : Nat) (hN : 1 ≤ N) :
    ((RayCaster.new fov N max_depth).cast_rays fcos fsin p m).length = N ∧
    (∀ i : Nat, i < N →
      ((RayCaster.new fov N max_depth).ray_angles)[i]? =
        some (-(fov / 2) + fov / (N : ℚ) * (i : ℚ)) ∧
      ((RayCaster.new fov N max_depth).cast_rays fcos fsin p m)[i]? =
        some ((RayCaster.new fov N max_depth).cast_single_ray fcos fsin
          p.pos.x p.pos.y (p.angle + (-(fov / 2) + fov / (N : ℚ) * (i : ℚ))) m) ∧
      ∃ hit : RayHit,
        (RayCaster.new fov N max_depth).cast_single_ray fcos fsin
          p.pos.x p.pos.y (p.angle + (-(fov / 2) + fov / (N : ℚ) * (i : ℚ))) m =
          some hit) ∧
    (0 < fov → ∀ i : Nat, i < N →
      p.angle - fov / 2 ≤ p.angle + (-(fov / 2) + fov / (N : ℚ) * (i : ℚ)) ∧
      p.angle + (-(fov / 2) + fov / (N : ℚ) * (i : ℚ)) < p.angle + fov / 2) := by
  refine ⟨?_, ?_, ?_⟩
  · simp only [RayCaster.cast_rays, RayCaster.new, List.length_map,
      List.length_range]
  · intro i hi
    refine ⟨?_, ?_, ?_⟩
    · simp only [RayCaster.new, List.getElem?_map, List.getElem?_range hi,
        Option.map_some']
    · simp only [RayCaster.cast_rays, RayCaster.new, List.getElem?_map,
        List.getElem?_range hi, Option.map_some']
    · rw [← Option.isSome_iff_exists]
      exact cast_single_ray_isSome _ fcos fsin p.pos.x p.pos.y _ m
  · intro hfov i hi
    have hN1 : (1 : ℚ) ≤ (N : ℚ) := by exact_mod_cast hN
    have hN0 : (0 : ℚ) < (N : ℚ) := by linarith
    have hstep : 0 < fov / (N : ℚ) := div_pos hfov hN0
    constructor
    · have h0 : 0 ≤ fov / (N : ℚ) * (i : ℚ) := by positivity
      linarith
    · have hiN : (i : ℚ) ≤ (N : ℚ) - 1 := by
        have : ((i : ℚ) + 1) ≤ (N : ℚ) := by exact_mod_cast hi
        linarith
      have hmul : fov / (N : ℚ) * (i : ℚ) ≤ fov / (N : ℚ) * ((N : ℚ) - 1) :=
        mul_le_mul_of_nonneg_left hiN (le_of_lt hstep)
      have heq : fov / (N : ℚ) * ((N : ℚ) - 1) = fov - fov / (N : ℚ) := by
        field_simp
        ring
      linarith

/-- Witness for C3 at a two-column caster in the 5×5 maze. -/
theorem cast_rays_covers_fov_witness :
    ((RayCaster.new 1 2 20).cast_rays (fun _ => 1) (fun _ => 0)
      ⟨⟨5 / 2, 5 / 2⟩, 0⟩ mazeFive).length = 2 :=
  (cast_rays_covers_fov (fun _ => 1) (fun _ => 0) 1 20 ⟨⟨5 / 2, 5 / 2⟩, 0⟩
    mazeFive 2 (by decide)).1

/-- A fold of single-index writes leaves untouched indices unchanged. -/
theorem foldl_set_preserve (g : Nat → Color) (idx : Nat → Nat) :
    ∀ (xs : List Nat) (i : Nat), (∀ j ∈ xs, idx j ≠ i) →
      ∀ acc : List Color,
        (xs.foldl (fun a j => a.set (idx j) (g j)) acc)[i]? = acc[i]? := by
  intro xs
  induction xs with
  | nil => intro i _ acc; rfl
  | cons j rest ih =>
    intro i hi acc
    rw [List.foldl_cons, ih i (fun j' hj' => hi j' (List.mem_cons_of_mem j hj'))]
    exact List.getElem?_set_ne (hi j (List.mem_cons_self j rest))

/-- A fold of single-index writes over pairwise-distinct indices yields,
at a written index, the written value. -/
theorem foldl_set_hit (g : Nat → Color) (idx : Nat → Nat) :
    ∀ (xs : List Nat) (x : Nat), xs.Nodup → x ∈ xs →
      (∀ j ∈ xs, idx j = idx x → j = x) →
      ∀ acc : List Color, idx x < acc.length →
        (xs.foldl (fun a j => a.set (idx j) (g j)) acc)[idx x]? = some (g x) := by
  intro xs
  induction xs with
  | nil => intro x _ hx; cases hx
  | cons j rest ih =>
    intro x hnd hx hinj acc hlen
    rw [List.foldl_cons]
    rcases List.mem_cons.mp hx with rfl | hxr
    · have hjr : x ∉ rest := (List.nodup_cons.mp hnd).1
      rw [foldl_set_preserve g idx rest (idx x) ?_ _]
      · exact List.getElem?_set_self hlen
      · intro j' hj' h'
        exact absurd (by rwa [hinj j' (List.mem_cons_of_mem _ hj') h'] at hj') hjr
    · have hnd' := (List.nodup_cons.mp hnd).2
      have := ih x hnd' hxr (fun j' hj' h' => hinj j' (List.mem_cons_of_mem _ hj') h')
        (acc.set (idx j) (g j)) (by rwa [List.length_set])
      exact this

/-- The pixel buffer of the floor-span fold is the fold of the
single-pixel writes on the pixel buffer. -/
theorem foldl_fb_buffer (J : Nat → Nat) (F : Nat → Color) :
    ∀ (xs : List Nat) (acc : Framebuffer),
      (xs.foldl (fun a j => { a with buffer := a.buffer.set (J j) (F j) }) acc).buffer =
      xs.foldl (fun b j => b.set (J j) (F j)) acc.buffer := by
  intro xs
  induction xs with
  | nil => intro acc; rfl
  | cons j rest ih => intro acc; rw [List.foldl_cons, List.foldl_cons, ih]

/-- C2, counterexample: a floor pixel painted for a column whose wall
hit distance (15) equals the fog distance (15, the repository's fog
distance) is the 0.9-shaded texture color `(229, 229, 229, 255)`, not
the fog color `(80, 75, 50, 255)`. -/
theorem floor_span_fog_counterexample :
    ((Framebuffer.draw_textured_floor_span ⟨1, 2, [defaultColor, defaultColor]⟩
        (fun _ => 1) (fun _ => 0) 1 0 1 [⟨255, 255, 255, 255⟩] 1 1
        0 0 0 15 15).buffer)[1]? = some ⟨229, 229, 229, 255⟩ ∧
    (⟨229, 229, 229, 255⟩ : Color) ≠ Effects.new.fog_color := by
  constructor
  · with_unfolding_all decide
  · decide

/-- C2 (amended): `draw_textured_floor_span` never reads its `distance`
and `fog_distance` arguments — the painted frame is identical for any
two values of them — and every painted floor pixel is the tiled texture
sample scaled by the constant shade factor 0.9 with alpha 255; no fog
blending is applied to floor pixels. -/
theorem floor_span_ignores_fog (fb : Framebuffer) (fcos fsin : ℚ → ℚ)
    (y x_start x_end : Nat) (texture : List Color) (tw th : Nat)
    (px py pa d fd d2 fd2 : ℚ) (x : Nat)
    (hy : y < fb.height) (hlen : fb.buffer.length = fb.width * fb.height)
    (hx1 : min x_start fb.width ≤ x) (hx2 : x < min x_end fb.width) :
    fb.draw_textured_floor_span fcos fsin y x_start x_end texture tw th
        px py pa d2 fd2 =
      fb.draw_textured_floor_span fcos fsin y x_start x_end texture tw th
        px py pa d fd ∧
    ((fb.draw_textured_floor_span fcos fsin y x_start x_end texture tw th
        px py pa d fd).buffer)[y * fb.width + x]? =
      some (floorSpanColor fb.width fb.height fcos fsin texture tw th
        px py pa y x) := by
  refine ⟨rfl, ?_⟩
  unfold Framebuffer.draw_textured_floor_span
  rw [if_neg (by omega : ¬ fb.height ≤ y)]
  rw [foldl_fb_buffer (fun j => y * fb.width + j)
    (fun j => floorSpanColor fb.width fb.height fcos fsin texture tw th
      px py pa y j)]
  have hidx : y * fb.width + x < fb.buffer.length := by
    have h1 : y * fb.width + x < (y + 1) * fb.width := by
      rw [Nat.succ_mul]; omega
    have h2 : (y + 1) * fb.width ≤ fb.height * fb.width :=
      Nat.mul_le_mul_right _ (by omega)
    rw [hlen, Nat.mul_comm fb.width fb.height]
    exact lt_of_lt_of_le h1 h2
  exact foldl_set_hit _ (fun j => y * fb.width + j)
    (List.range' (min x_start fb.width) (min x_end fb.width - min x_start fb.width))
    x (List.nodup_range' _ _)
    (List.mem_range'_1.mpr (by omega))
    (fun j _ h => Nat.add_left_cancel h)
    fb.buffer hidx

/-- Witness for C2's amended theorem at a concrete 1×2 framebuffer and
1×1 white texture. -/
theorem floor_span_ignores_fog_witness :
    ((Framebuffer.draw_textured_floor_span ⟨1, 2, [defaultColor, defaultColor]⟩
        (fun _ => 1) (fun _ => 0) 1 0 1 [⟨255, 255, 255, 255⟩] 1 1
        0 0 0 15 15).buffer)[1]? =
      some (floorSpanColor 1 2 (fun _ => 1) (fun _ => 0)
        [⟨255, 255, 255, 255⟩] 1 1 0 0 0 1 0) :=
  (floor_span_ignores_fog ⟨1, 2, [defaultColor, defaultColor]⟩
    (fun _ => 1) (fun _ => 0) 1 0 1 [⟨255, 255, 255, 255⟩] 1 1
    0 0 0 15 15 7 9 0 (by decide) (by decide) (by decide) (by decide)).2

end Backrooms
